import Mathlib

/-!
Verification development for the viennaptm modification engine.

This file shallowly embeds the core of the repository:
* `viennaptm/modification/calculation/align.py` (weighted rigid-body alignment),
* `viennaptm/modification/modification_library.py` (rule model and library),
* `viennaptm/modification/application/modifier.py` (the residue-mutation
  engine used by the main entrypoint `viennaptm/entrypoints/viennaptm.py`).

Machine reals (numpy float64) are embedded as `ℚ`; the claims settled here
are either exact-arithmetic properties (stated as such by the spec) or
coordinate-independent bookkeeping properties, so the change of scalar field
is faithful.  Python exceptions become an explicit `Err` type whose
constructors record the detection site, mirroring the error taxonomy of the
spec (`NotFoundError`, `OutOfRangeError`, `MissingAtomError`, `MappingError`,
`SchemaError`, `ResourceError`).  In-place mutation becomes state passing:
fallible mutating operations return `Except (Err × State) State`, the error
carrying the state of the mutated object at the moment the exception is
raised.
-/

/-- Error kinds, one per detection site of the Python code. -/
inductive Err where
  /-- `ValueError` raised when the residue selector matches nothing
      (`apply_modification`). -/
  | residueNotFound : Err
  /-- `IndexError` raised by CPython list indexing in
      `ModificationLibrary.__getitem__` with an `int` index. -/
  | indexOutOfRange : Err
  /-- `IndexError` raised by `ModificationLibrary.__getitem__` when a
      `(original, modified)` pair matches no entry. -/
  | modNotFound : Err
  /-- `KeyError` raised by `_mapping[x]` when a branch anchor has no entry in
      the inverted atom mapping (`_execute_modification`). -/
  | mappingError : Err
  /-- `KeyError` raised (and re-raised with a logging message) when a
      translated anchor name is absent from the original residue. -/
  | missingAtomOriginal : Err
  /-- `KeyError` raised when an anchor or add-atom name is absent from the
      template residue. -/
  | missingAtomTemplate : Err
  /-- `KeyError` raised by `residue[old_name]` inside `_rename_atom` when the
      atom to rename is absent. -/
  | renameKeyError : Err
  /-- `PDBConstructionException` raised by `Residue.add` when an atom with
      the same name is already present. -/
  | duplicateAtom : Err
  /-- `ValueError` raised by `load_residue_from_pdb` when the first parsed
      residue's name is not contained in the target abbreviation. -/
  | schemaError : Err
  /-- `KeyError` raised by `self.target_templates[target_abbreviation]` when
      no template path is registered for the target type. -/
  | resourceError : Err
  /-- `StopIteration` raised by `next(structure.get_residues())` on a parsed
      file holding no residue. -/
  | stopIteration : Err
  /-- `ValueError` raised by `AddBranch.check_branch` on a weight/anchor
      length mismatch, and by `key.split('_')` unpacking in `_load_library`. -/
  | valueError : Err
deriving DecidableEq, Repr

/-! ## Vectors and matrices (3-D, exact scalars) -/

/-- A 3-D point/vector, component triple. -/
abbrev Vec3 := ℚ × ℚ × ℚ

/-- A 3×3 matrix as a triple of rows. -/
abbrev Mat3 := Vec3 × Vec3 × Vec3

/-- Dot product of two 3-vectors. -/
def dotv (a b : Vec3) : ℚ := a.1 * b.1 + a.2.1 * b.2.1 + a.2.2 * b.2.2

/-- Componentwise sum. -/
def addv (a b : Vec3) : Vec3 := (a.1 + b.1, a.2.1 + b.2.1, a.2.2 + b.2.2)

/-- Componentwise difference. -/
def subv (a b : Vec3) : Vec3 := (a.1 - b.1, a.2.1 - b.2.1, a.2.2 - b.2.2)

/-- Scalar multiple. -/
def smulv (c : ℚ) (a : Vec3) : Vec3 := (c * a.1, c * a.2.1, c * a.2.2)

/-- Matrix-vector product (`M @ v`). -/
def mulVec (M : Mat3) (v : Vec3) : Vec3 :=
  (dotv M.1 v, dotv M.2.1 v, dotv M.2.2 v)

/-- The identity matrix. -/
def idMat : Mat3 := ((1, 0, 0), (0, 1, 0), (0, 0, 1))

/-! ## Alignment engine — `calculation/align.py` -/

/-- Weighted vector sum `Σᵢ wᵢ·pᵢ` over two equal-length lists
    (the numerator of `np.average(coords, axis=0, weights=w)`). -/
def wsum : List Vec3 → List ℚ → Vec3
  | p :: ps, w :: ws => addv (smulv w p) (wsum ps ws)
  | _, _ => (0, 0, 0)

/-- Weighted centroid `np.average(coords, axis=0, weights=w) = Σ wᵢpᵢ / Σ wᵢ`. -/
def wcentroid (ps : List Vec3) (ws : List ℚ) : Vec3 :=
  smulv (ws.sum)⁻¹ (wsum ps ws)

/-- `compute_alignment_transform` from `calculation/align.py`.

    The rotation matrix is produced by `scipy...Rotation.align_vectors` (an
    SVD solve on the centered coordinates), an external library call; it is
    abstracted here as the parameter `R`, exactly as the claim quantifies
    ("for any rotation matrix R the SVD step produces").  The translation is
    the source's formula `v_translation = cog_reference - M_rotation @
    cog_template` with the weighted centroids `np.average(..., weights=...)`. -/
def compute_alignment_transform (R : Mat3) (coord_reference coord_template : List Vec3)
    (weights : List ℚ) : Mat3 × Vec3 :=
  (R, subv (wcentroid coord_reference weights) (mulVec R (wcentroid coord_template weights)))

/-- `apply_transform` from `calculation/align.py`: `(M @ coords.T).T + v`,
    i.e. every point `p` becomes `M·p + v`. -/
def apply_transform (coords : List Vec3) (M_rotation : Mat3) (v_translation : Vec3) :
    List Vec3 :=
  coords.map (fun p => addv (mulVec M_rotation p) v_translation)

/-! ## Atoms and residues (Bio.PDB collaborators, at their boundary) -/

/-- Right-justify a string into a field of width 4 (Python `f"{s:>4}"`). -/
def rjust4 (s : String) : String :=
  if s.length ≥ 4 then s else String.mk (List.replicate (4 - s.length) ' ') ++ s

/-- An atom as the engine consumes it: `Bio.PDB.Atom` restricted to the
    fields the engine reads or writes.  The Bio.PDB `id` always equals
    `name` here (both are set together by the engine), so a single `name`
    field stands for both. -/
structure Atom where
  name : String
  coord : Vec3
  occupancy : ℚ
  bfactor : ℚ
  altloc : String
  fullname : String
  serial : Option Nat
  element : String
deriving DecidableEq, Repr

/-- A residue: type label, chain id, sequence number, and the ordered atom
    collection (`child_list`, keyed by atom name). -/
structure Residue where
  resname : String
  chain : String
  number : Int
  atoms : List Atom
deriving DecidableEq, Repr

/-- `residue[name]` lookup (Bio.PDB keys children by atom id = name). -/
def Residue.lookup (r : Residue) (n : String) : Option Atom :=
  r.atoms.find? (fun a => a.name == n)

/-- `residue.detach_child(name)`: remove the child with that id, a no-op if
    absent. -/
def Residue.detach (r : Residue) (n : String) : Residue :=
  { r with atoms := r.atoms.filter (fun a => a.name != n) }

/-- `Bio.PDB.Residue.add`: raises `PDBConstructionException` if an atom with
    the same id is already present, else appends to `child_list`. -/
def Residue.addAtom (r : Residue) (a : Atom) : Except Err Residue :=
  if r.atoms.any (fun b => b.name == a.name) then .error .duplicateAtom
  else .ok { r with atoms := r.atoms ++ [a] }

/-! ## Modification rule model — `modification_library.py` -/

/-- `AddBranch` (pydantic model): anchor atoms, weights, atoms to add. -/
structure AddBranch where
  anchor_atoms : List String
  weights : List ℚ
  add_atoms : List String
deriving DecidableEq, Repr

/-- `AddBranch.check_branch`, the pydantic `model_validator(mode="after")`:
    a non-empty (`if self.weights:` truthy) weight list must match the anchor
    count; an empty weight list with non-empty anchors is replaced by uniform
    weights `1.0`. -/
def AddBranch.check_branch (anchor_atoms : List String) (weights : List ℚ)
    (add_atoms : List String) : Except Err AddBranch :=
  if weights ≠ [] then
    if weights.length ≠ anchor_atoms.length then .error .valueError
    else .ok ⟨anchor_atoms, weights, add_atoms⟩
  else
    if anchor_atoms.length > 0 then
      .ok ⟨anchor_atoms, List.replicate anchor_atoms.length 1, add_atoms⟩
    else .ok ⟨anchor_atoms, weights, add_atoms⟩

/-- `Modification` (pydantic model).  A mapping pair `(original, modified)`
    uses `none` for an atom absent on that side. -/
structure Modification where
  residue_original_abbreviation : String
  residue_modified_abbreviation : String
  atom_mapping : List (Option String × Option String)
  add_branches : List AddBranch
deriving DecidableEq, Repr

/-- Raw (pre-validation) branch data as read from JSON:
    `(anchor_atoms, weights, add_atoms)`. -/
abbrev RawBranch := List String × List ℚ × List String

/-- Pydantic validation of a `Modification`: each raw branch runs through
    `AddBranch.check_branch`; the atom mapping has no validator and is
    type-checked only (`List (Option String × Option String)`). -/
def Modification.validate (original modified : String)
    (atom_mapping : List (Option String × Option String))
    (branches : List RawBranch) : Except Err Modification := do
  let bs ← branches.mapM (fun b => AddBranch.check_branch b.1 b.2.1 b.2.2)
  .ok ⟨original, modified, atom_mapping, bs⟩

/-- Python `key.split('_')` at the character level (structural recursion, so
    that concrete runs reduce in the kernel). -/
def splitUnderscore (l : List Char) : List (List Char) :=
  match l with
  | [] => [[]]
  | x :: xs =>
    match splitUnderscore xs with
    | [] => [[]]
    | g :: gs => if x = '_' then [] :: g :: gs else (x :: g) :: gs

/-- Character-list version of "is a leading segment of". -/
def chPre : List Char → List Char → Bool
  | [], _ => true
  | _ :: _, [] => false
  | a :: as, b :: bs => (a == b) && chPre as bs

/-- Character-list substring occurrence test. -/
def chInfix (needle : List Char) : List Char → Bool
  | [] => needle.isEmpty
  | b :: bs => chPre needle (b :: bs) || chInfix needle bs

/-- One entry of `_load_library`'s per-entry loop: split the key on `'_'`
    (the tuple unpacking `original, modified = key.split('_')` raises
    `ValueError` unless the split has exactly two parts), then construct and
    validate the `Modification`. -/
def loadEntry (key : String) (atom_mapping : List (Option String × Option String))
    (branches : List RawBranch) : Except Err Modification :=
  match (splitUnderscore key.data).map String.mk with
  | [original, modified] => Modification.validate original modified atom_mapping branches
  | _ => .error .valueError

/-- A rule source: presence flags for the two required top-level keys plus
    the keyed entries `(key, atom_mapping, add_branches)`. -/
structure RuleSource where
  hasMetadata : Bool
  hasModifications : Bool
  entries : List (String × List (Option String × Option String) × List RawBranch)

/-- `ModificationLibrary._load_library`: reject a source missing a required
    top-level key (`KeyError`), then parse every entry in order. -/
def loadLibrary (src : RuleSource) : Except Err (List Modification) := do
  if ¬ (src.hasMetadata ∧ src.hasModifications) then .error .valueError
  else src.entries.mapM (fun e => loadEntry e.1 e.2.1 e.2.2)

/-- The library: the loaded modifications plus the template index.  The
    template index maps a target abbreviation to the residues parsed from
    its registered PDB file (`target_templates` holds the path; the file
    system and `PDBParser` are embedded as the parsed residue list). -/
structure ModificationLibrary where
  modifications : List Modification
  target_templates : List (String × List Residue)
deriving Repr

/-- CPython list indexing semantics (`lst[i]` for `i : int`): negative
    indices count from the end; out-of-bounds raises `IndexError`. -/
def pyListGet {α : Type} (l : List α) (i : Int) : Except Err α :=
  let j := if i < 0 then i + l.length else i
  if 0 ≤ j ∧ j < l.length then
    match l.get? j.toNat with
    | some a => .ok a
    | none => .error .indexOutOfRange
  else .error .indexOutOfRange

/-- `ModificationLibrary.__getitem__` with an `int` index:
    `return self.modifications[index]`. -/
def ModificationLibrary.getByIndex (lib : ModificationLibrary) (i : Int) :
    Except Err Modification :=
  pyListGet lib.modifications i

/-- `ModificationLibrary.__getitem__` with an `(original, modified)` tuple:
    linear search, falling through to `raise IndexError(...)` on a miss. -/
def ModificationLibrary.getByPair (lib : ModificationLibrary) (original modified : String) :
    Except Err Modification :=
  match lib.modifications.find? (fun m =>
      m.residue_original_abbreviation == original &&
      m.residue_modified_abbreviation == modified) with
  | some m => .ok m
  | none => .error .modNotFound

/-- Python substring test `needle in hay` on strings, via the character-list
    helpers below. -/
def strContains (hay needle : String) : Bool :=
  chInfix needle.data hay.data

/-- Python `s.startswith(pre)`, at the character level. -/
def strStarts (s pre : String) : Bool :=
  chPre pre.data s.data

/-- `ModificationLibrary.load_residue_from_pdb`: resolve the template path
    (`KeyError` if unregistered), take the first parsed residue
    (`next(structure.get_residues())`, `StopIteration` on an empty file),
    and require `residue.resname in target_abbreviation` (Python substring
    containment), else `ValueError`. -/
def ModificationLibrary.load_residue_from_pdb (lib : ModificationLibrary)
    (target_abbreviation : String) : Except Err Residue :=
  match lib.target_templates.find? (fun p => p.1 == target_abbreviation) with
  | none => .error .resourceError
  | some (_, residues) =>
    match residues with
    | [] => .error .stopIteration
    | r :: _ =>
      if strContains target_abbreviation r.resname then .ok r
      else .error .schemaError

/-! ## Modifier — `application/modifier.py` -/

/-- The inverted atom mapping `_mapping = {temp: ori for ori, temp in
    modification.atom_mapping}` looked up at a branch anchor name `x`
    (`_mapping[x]`): dict comprehension semantics make the last pair with a
    given template name win; `none` when no pair has template name `x`
    (`KeyError` in the source). -/
def invLookup (mapping : List (Option String × Option String)) (x : String) :
    Option (Option String) :=
  (mapping.reverse.find? (fun p => p.2 == some x)).map (fun p => p.1)

/-- Run a lookup over a list, failing with `e` at the first element the
    lookup misses (the shape of every `[container[name] for name in names]`
    comprehension in `_execute_modification`). -/
def fetchList {β α : Type} (g : β → Option α) (e : Err) : List β → Except Err (List α)
  | [] => .ok []
  | n :: ns =>
    match g n with
    | none => .error e
    | some a => (fetchList g e ns).map (fun as => a :: as)

/-- `Modifier._rename_atom`: fetch the atom (`KeyError` if absent), detach
    it, update `name`, `fullname` (right-justified to width 4) and `id`, and
    re-add it (which raises if the new name is already taken). -/
def rename_atom (r : Residue) (old_name new_name : String) : Except Err Residue :=
  match r.lookup old_name with
  | none => .error .renameKeyError
  | some a =>
    (r.detach old_name).addAtom { a with name := new_name, fullname := rjust4 new_name }

/-- The `for ori, tar in modification.atom_mapping` loop of
    `_execute_modification` (run on the first branch only), written with one
    pattern per pair shape.  The source's flow — `if ori == tar: continue`,
    then `if ori is not None`, then delete when `tar is None` (guarded by
    presence) else rename — collapses to: pairs with `ori` null do nothing
    (`(None, None)` is skipped as equal, `(None, t)` is an addition-side
    pair), `(o, None)` deletes `o` if present, and `(o, t)` renames unless
    `o == t`.  The error carries the residue state at the moment the
    exception is raised (in-place mutation). -/
def applyMappingGo : List (Option String × Option String) → Residue →
    Except (Err × Residue) Residue
  | [], r => .ok r
  | (none, _) :: rest, r => applyMappingGo rest r
  | (some o, none) :: rest, r => applyMappingGo rest (r.detach o)
  | (some o, some t) :: rest, r =>
    if o = t then applyMappingGo rest r
    else
      match rename_atom r o t with
      | .error e => .error (e, r)
      | .ok r' => applyMappingGo rest r'

/-- Apply the full atom mapping to a residue, in pair order. -/
def applyMapping (mapping : List (Option String × Option String)) (r : Residue) :
    Except (Err × Residue) Residue :=
  applyMappingGo mapping r

/-- The new atom inserted for a template add-atom at its aligned coordinate:
    `Atom(name=atom.get_name(), coord=..., bfactor=0, occupancy=1.0,
    altloc=' ', fullname=f"{atom.get_fullname():>4}", serial_number=None,
    element=atom.element)`. -/
def buildAddAtom (tmplAtom : Atom) (c : Vec3) : Atom :=
  { name := tmplAtom.name, coord := c, occupancy := 1, bfactor := 0,
    altloc := " ", fullname := rjust4 tmplAtom.fullname, serial := none,
    element := tmplAtom.element }

/-- The `residue.add(...)` loop over the transformed add-atoms. -/
def addAtomsFold : Residue → List Atom → Except (Err × Residue) Residue
  | r, [] => .ok r
  | r, a :: rest =>
    match r.addAtom a with
    | .error e => .error (e, r)
    | .ok r' => addAtomsFold r' rest

/-- One iteration of the branch loop of `_execute_modification`
    (`application/modifier.py`): translate the anchors through the inverted
    mapping, fetch anchor atoms from both residues, compute the alignment
    transform (rotation `R` abstracting the SVD result), fetch and transform
    the add-atoms, apply the atom mapping when this is the first branch
    (`branch_first`), and insert the new atoms. -/
def processBranch (R : Mat3) (branch_first : Bool)
    (mapping : List (Option String × Option String)) (template_residue : Residue)
    (b : AddBranch) (r : Residue) : Except (Err × Residue) Residue :=
  match fetchList (invLookup mapping) .mappingError b.anchor_atoms with
  | .error e => .error (e, r)
  | .ok anchors_in_original =>
    match fetchList (fun o => o.bind r.lookup) .missingAtomOriginal anchors_in_original with
    | .error e => .error (e, r)
    | .ok original_anchor_atoms =>
      match fetchList template_residue.lookup .missingAtomTemplate b.anchor_atoms with
      | .error e => .error (e, r)
      | .ok template_anchor_atoms =>
        let Mv := compute_alignment_transform R
          (original_anchor_atoms.map (fun a => a.coord))
          (template_anchor_atoms.map (fun a => a.coord)) b.weights
        match fetchList template_residue.lookup .missingAtomTemplate b.add_atoms with
        | .error e => .error (e, r)
        | .ok add_atoms =>
          let coords_aligned :=
            apply_transform (add_atoms.map (fun a => a.coord)) Mv.1 Mv.2
          let afterMap : Except (Err × Residue) Residue :=
            if branch_first then applyMapping mapping r else .ok r
          match afterMap with
          | .error e => .error e
          | .ok r1 => addAtomsFold r1 (List.zipWith buildAddAtom add_atoms coords_aligned)

/-- The branch loop, with the `branch_first` flag and the per-branch
    rotation produced by the external SVD solve (`Rots i` is the rotation
    `scipy` returns for the `i`-th branch). -/
def execGo (Rots : Nat → Mat3) (mapping : List (Option String × Option String))
    (template_residue : Residue) :
    Nat → Bool → List AddBranch → Residue → Except (Err × Residue) Residue
  | _, _, [], r => .ok r
  | i, first, b :: bs, r =>
    match processBranch (Rots i) first mapping template_residue b r with
    | .error e => .error e
    | .ok r' => execGo Rots mapping template_residue (i + 1) false bs r'

/-- `Modifier._execute_modification` (`application/modifier.py`). -/
def execModification (Rots : Nat → Mat3) (residue : Residue) (m : Modification)
    (template_residue : Residue) : Except (Err × Residue) Residue :=
  execGo Rots m.atom_mapping template_residue 0 true m.add_branches residue

/-- `Modifier.remove_hydrogens`: drop every atom whose name starts with
    `"H"`.  (The source collects the names, then detaches each; on the
    name-keyed collection this is the same as one filter.) -/
def remove_hydrogens (r : Residue) : Residue :=
  { r with atoms := r.atoms.filter (fun a => !strStarts a.name "H") }

/-! ## Structure and `apply_modification` -/

/-- One row of the modification history. -/
structure LogEntry where
  residue_number : Int
  chain_identifier : String
  original_abbreviation : String
  target_abbreviation : String
deriving DecidableEq, Repr

/-- The annotated structure at the boundary the engine uses: residue
    traversal order and the modification log. -/
structure AnnotatedStructure where
  residues : List Residue
  modification_log : List LogEntry
deriving DecidableEq, Repr

/-- The residue scan of `apply_modification`: first residue (in traversal
    order) whose chain identifier and sequence number match. -/
def AnnotatedStructure.findResidueIdx (s : AnnotatedStructure) (chain : String)
    (num : Int) : Option Nat :=
  s.residues.findIdx? (fun r => r.chain == chain && r.number == num)

/-- Replace the residue at an index (the in-place mutation of the located
    residue object, seen from the structure). -/
def AnnotatedStructure.setResidue (s : AnnotatedStructure) (i : Nat) (r : Residue) :
    AnnotatedStructure :=
  { s with residues := s.residues.set i r }

/-- `Modifier.apply_modification` (`application/modifier.py`) for the
    `inplace=True` path (with `inplace=False` the same computation runs on a
    deep copy).  Errors carry the structure state at raise time: the residue
    scan raises before any mutation; later errors see the hydrogen-stripped
    (and possibly partially modified) residue. -/
def applyModification (lib : ModificationLibrary) (Rots : Nat → Mat3)
    (s : AnnotatedStructure) (chain_identifier : String) (residue_number : Int)
    (target_abbreviation : String) :
    Except (Err × AnnotatedStructure) AnnotatedStructure :=
  match s.findResidueIdx chain_identifier residue_number with
  | none => .error (.residueNotFound, s)
  | some idx =>
    match s.residues.get? idx with
    | none => .error (.residueNotFound, s)
    | some residue =>
      let r0 := remove_hydrogens residue
      let s1 := s.setResidue idx r0
      let original_residue_abbreviation := r0.resname
      match lib.getByPair original_residue_abbreviation target_abbreviation with
      | .error e => .error (e, s1)
      | .ok modification =>
        match lib.load_residue_from_pdb target_abbreviation with
        | .error e => .error (e, s1)
        | .ok target_residue =>
          match execModification Rots r0 modification target_residue with
          | .error (e, rPart) => .error (e, s.setResidue idx rPart)
          | .ok r' =>
            let r2 := { r' with resname := target_residue.resname }
            let s2 := s.setResidue idx r2
            .ok { s2 with modification_log := s2.modification_log ++
                    [⟨residue_number, chain_identifier,
                      original_residue_abbreviation, target_abbreviation⟩] }

/-! ## Claim C2 — centroid exactness of the alignment transform -/

lemma addv_mulVec_subv_cancel (M : Mat3) (c d : Vec3) :
    addv (mulVec M c) (subv d (mulVec M c)) = d := by
  obtain ⟨d1, d2, d3⟩ := d
  simp only [addv, subv, mulVec, dotv, Prod.mk.injEq]
  refine ⟨by ring, by ring, by ring⟩

lemma wsum_map_affine (M : Mat3) (t : Vec3) (ps : List Vec3) (ws : List ℚ)
    (h : ps.length = ws.length) :
    wsum (ps.map (fun p => addv (mulVec M p) t)) ws =
      addv (mulVec M (wsum ps ws)) (smulv ws.sum t) := by
  induction ps generalizing ws with
  | nil =>
    cases ws with
    | nil => simp [wsum, addv, smulv, mulVec, dotv]
    | cons w ws => simp at h
  | cons p ps ih =>
    cases ws with
    | nil => simp at h
    | cons w ws =>
      have h' : ps.length = ws.length := by simpa using h
      simp only [List.map_cons, wsum, List.sum_cons]
      rw [ih ws h']
      generalize wsum ps ws = S
      obtain ⟨S1, S2, S3⟩ := S
      obtain ⟨p1, p2, p3⟩ := p
      obtain ⟨t1, t2, t3⟩ := t
      simp only [addv, smulv, mulVec, dotv, Prod.mk.injEq]
      refine ⟨by ring, by ring, by ring⟩

/-- C2: for equal-length reference/template point sets and an equal-length
    weight vector of positive total weight, `compute_alignment_transform`
    returns `(R, t)` with `R·centroid(template) + t = centroid(reference)`
    exactly, and `apply_transform` maps the weighted centroid of the template
    points onto the weighted centroid of the reference points (exact
    arithmetic, for any rotation matrix `R` the SVD step produces). -/
theorem alignment_centroid_exact (R : Mat3) (reference template : List Vec3)
    (weights : List ℚ) (_hlen : reference.length = template.length)
    (hwl : weights.length = template.length) (hpos : 0 < weights.sum) :
    addv (mulVec (compute_alignment_transform R reference template weights).1
        (wcentroid template weights))
      (compute_alignment_transform R reference template weights).2 =
      wcentroid reference weights ∧
    wcentroid (apply_transform template
        (compute_alignment_transform R reference template weights).1
        (compute_alignment_transform R reference template weights).2) weights =
      wcentroid reference weights := by
  have hW : weights.sum ≠ 0 := ne_of_gt hpos
  have h1 : addv (mulVec R (wcentroid template weights))
      (subv (wcentroid reference weights) (mulVec R (wcentroid template weights))) =
      wcentroid reference weights :=
    addv_mulVec_subv_cancel R _ _
  refine ⟨h1, ?_⟩
  simp only [compute_alignment_transform, apply_transform] at h1 ⊢
  unfold wcentroid at h1 ⊢
  rw [wsum_map_affine R _ template weights hwl.symm]
  · generalize wsum template weights = S at h1 ⊢
    generalize wsum reference weights = C at h1 ⊢
    set W := weights.sum with hWdef
    obtain ⟨S1, S2, S3⟩ := S
    obtain ⟨C1, C2, C3⟩ := C
    simp only [addv, smulv, subv, mulVec, dotv, Prod.mk.injEq] at h1 ⊢
    refine ⟨?_, ?_, ?_⟩ <;> field_simp

/-- Concrete anchor points for the alignment witness. -/
def pts3 : List Vec3 := [(0, 0, 0), (2, 0, 0), (0, 2, 0)]

theorem alignment_centroid_exact_witness :
    (0 : ℚ) < ([1, 1, 1] : List ℚ).sum ∧
    (addv (mulVec (compute_alignment_transform idMat pts3 pts3 [1, 1, 1]).1
        (wcentroid pts3 [1, 1, 1]))
      (compute_alignment_transform idMat pts3 pts3 [1, 1, 1]).2 =
      wcentroid pts3 [1, 1, 1] ∧
    wcentroid (apply_transform pts3
        (compute_alignment_transform idMat pts3 pts3 [1, 1, 1]).1
        (compute_alignment_transform idMat pts3 pts3 [1, 1, 1]).2) [1, 1, 1] =
      wcentroid pts3 [1, 1, 1]) :=
  ⟨by norm_num, alignment_centroid_exact idMat pts3 pts3 [1, 1, 1] rfl rfl (by norm_num)⟩

/-! ## Claim C6 — indexed library lookup -/

/-- C6 counterexample: `self.modifications[index]` uses CPython list
    indexing, so a negative index inside `[-len, 0)` returns an entry from
    the end instead of raising: with a one-entry library, `library[-1]`
    returns that entry. -/
theorem lookup_negative_index_counterexample :
    ModificationLibrary.getByIndex ⟨[⟨"VAL", "V3H", [], []⟩], []⟩ (-1) =
      .ok ⟨"VAL", "V3H", [], []⟩ := by
  rfl

/-- C6 (amended): `library[i]` returns the `i`-th entry for `0 ≤ i < len`,
    returns the `(len + i)`-th entry for `-len ≤ i < 0` (Python negative
    indexing), and fails with the out-of-range error exactly for
    `i ≥ len` and `i < -len`. -/
theorem lookup_by_index_amended (lib : ModificationLibrary) (i : Int) :
    (0 ≤ i ∧ i < lib.modifications.length →
      ∃ m, lib.modifications.get? i.toNat = some m ∧ lib.getByIndex i = .ok m) ∧
    (-(lib.modifications.length : Int) ≤ i ∧ i < 0 →
      ∃ m, lib.modifications.get? (i + lib.modifications.length).toNat = some m ∧
        lib.getByIndex i = .ok m) ∧
    ((lib.modifications.length : Int) ≤ i ∨ i < -(lib.modifications.length : Int) →
      lib.getByIndex i = .error .indexOutOfRange) := by
  unfold ModificationLibrary.getByIndex pyListGet
  refine ⟨?_, ?_, ?_⟩
  · rintro ⟨h0, h1⟩
    have hif : ¬ i < 0 := by omega
    have hn : i.toNat < lib.modifications.length := by omega
    refine ⟨lib.modifications.get ⟨i.toNat, hn⟩, List.get?_eq_get hn, ?_⟩
    rw [if_neg hif, if_pos (by constructor <;> omega), List.get?_eq_get hn]
  · rintro ⟨h0, h1⟩
    have hif : i < 0 := h1
    have hn : (i + lib.modifications.length).toNat < lib.modifications.length := by omega
    refine ⟨lib.modifications.get ⟨(i + lib.modifications.length).toNat, hn⟩,
      List.get?_eq_get hn, ?_⟩
    rw [if_pos hif, if_pos (by constructor <;> omega), List.get?_eq_get hn]
  · intro h
    by_cases hif : i < 0
    · rw [if_pos hif, if_neg (by omega)]
    · rw [if_neg hif, if_neg (by omega)]

/-- A concrete one-entry library for the index-lookup witness. -/
def lib1 : ModificationLibrary := ⟨[⟨"VAL", "V3H", [], []⟩], []⟩

theorem lookup_by_index_amended_witness :
    (-(lib1.modifications.length : Int) ≤ -1 ∧ (-1 : Int) < 0) ∧
    (∃ m, lib1.modifications.get? ((-1 : Int) + lib1.modifications.length).toNat = some m ∧
      lib1.getByIndex (-1) = .ok m) :=
  ⟨by norm_num [lib1], (lookup_by_index_amended lib1 (-1)).2.1 (by norm_num [lib1])⟩

/-! ## Claim C7 — template residue loading -/

/-- C7 counterexample: a registered template file parsed into two residues
    (both labelled consistently) does not raise: `load_residue_from_pdb`
    takes only `next(structure.get_residues())` and returns the first
    residue, never checking that it is the only one. -/
theorem load_template_two_residues_counterexample :
    ModificationLibrary.load_residue_from_pdb
      ⟨[], [("V3H", [⟨"V3H", "", 0, []⟩, ⟨"V3H", "", 1, []⟩])]⟩ "V3H" =
      .ok ⟨"V3H", "", 0, []⟩ ∧
    ([⟨"V3H", "", 0, []⟩, ⟨"V3H", "", 1, []⟩] : List Residue).length = 2 := by
  exact ⟨rfl, rfl⟩

/-- C7 (amended): `load_residue_from_pdb(target)` fails with the resource
    error when no template is registered for `target`; otherwise it inspects
    only the first parsed residue: an empty file raises `StopIteration`, a
    first residue whose stored label is not a substring of `target` raises
    the schema error, and otherwise that first residue is returned with any
    further residues ignored. -/
theorem load_residue_from_pdb_amended (lib : ModificationLibrary) (target : String) :
    (lib.target_templates.find? (fun p => p.1 == target) = none →
      lib.load_residue_from_pdb target = .error .resourceError) ∧
    (∀ k, lib.target_templates.find? (fun p => p.1 == target) = some (k, []) →
      lib.load_residue_from_pdb target = .error .stopIteration) ∧
    (∀ k r rest, lib.target_templates.find? (fun p => p.1 == target) = some (k, r :: rest) →
      (strContains target r.resname = true →
        lib.load_residue_from_pdb target = .ok r) ∧
      (strContains target r.resname = false →
        lib.load_residue_from_pdb target = .error .schemaError)) := by
  refine ⟨?_, ?_, ?_⟩
  · intro h
    simp [ModificationLibrary.load_residue_from_pdb, h]
  · intro k h
    simp [ModificationLibrary.load_residue_from_pdb, h]
  · intro k r rest h
    constructor <;> intro hc <;>
      simp [ModificationLibrary.load_residue_from_pdb, h, hc]

theorem load_residue_from_pdb_amended_witness :
    (ModificationLibrary.target_templates ⟨[], [("V3H", [⟨"V3H", "", 0, []⟩])]⟩).find?
        (fun p => p.1 == "V3H") = some ("V3H", [⟨"V3H", "", 0, []⟩]) ∧
    strContains "V3H" "V3H" = true ∧
    ModificationLibrary.load_residue_from_pdb ⟨[], [("V3H", [⟨"V3H", "", 0, []⟩])]⟩ "V3H" =
      .ok ⟨"V3H", "", 0, []⟩ :=
  ⟨rfl, rfl,
    ((load_residue_from_pdb_amended ⟨[], [("V3H", [⟨"V3H", "", 0, []⟩])]⟩ "V3H").2.2
      "V3H" ⟨"V3H", "", 0, []⟩ [] rfl).1 rfl⟩

/-! ## Claim C8 — no rejection of (null, null) mapping pairs -/

/-- C8 counterexample: the loader accepts an entry whose atom mapping is the
    single pair `(None, None)` and constructs the `Modification` with the
    pair retained — no mapping-pair well-formedness validation exists. -/
theorem load_null_null_pair_counterexample :
    loadLibrary ⟨true, true, [("ALA_AYE", [(none, none)], [])]⟩ =
      .ok [⟨"ALA", "AYE", [(none, none)], []⟩] := by
  rfl

/-- C8 (amended): per-entry validation never inspects the atom mapping: an
    entry succeeds or fails independently of its `atom_mapping` content
    (only the key format and the branch weight/anchor check matter), and the
    mapping — including any `(None, None)` pair — is carried verbatim into
    the constructed `Modification`. -/
theorem load_entry_mapping_unchecked (key : String)
    (mapping : List (Option String × Option String)) (branches : List RawBranch) :
    loadEntry key mapping branches =
      (loadEntry key [] branches).map (fun m => { m with atom_mapping := mapping }) := by
  unfold loadEntry
  cases hs : (splitUnderscore key.data).map String.mk with
  | nil => rfl
  | cons a l =>
    cases l with
    | nil => rfl
    | cons b l2 =>
      cases l2 with
      | nil =>
        unfold Modification.validate
        cases hb : branches.mapM (fun b => AddBranch.check_branch b.1 b.2.1 b.2.2) with
        | error e => simp [hb, bind, Except.bind, Except.map]
        | ok bs => simp [hb, bind, Except.bind, Except.map]
      | cons c l3 => rfl

/-! ## Claim C9 — branch weight validation -/

/-- C9 counterexample: an explicitly supplied *empty* weight list with one
    anchor atom has mismatched lengths (`0 ≠ 1`) yet construction succeeds
    (the `if self.weights:` truthiness test skips the length check), and the
    branch silently receives uniform weights. -/
theorem check_branch_empty_weights_counterexample :
    AddBranch.check_branch ["CA"] [] [] = .ok ⟨["CA"], [1], []⟩ ∧
    ([] : List ℚ).length ≠ (["CA"] : List String).length := by
  exact ⟨rfl, by decide⟩

/-- C9 (amended): construction fails exactly when the supplied weight list
    is non-empty and its length differs from the anchor count; a non-empty
    matching weight list is kept; an empty weight list (omitted or supplied)
    with non-empty anchors is replaced by the uniform list of `1.0` with one
    entry per anchor atom. -/
theorem check_branch_amended (anchors : List String) (weights : List ℚ)
    (adds : List String) :
    (weights ≠ [] → weights.length ≠ anchors.length →
      AddBranch.check_branch anchors weights adds = .error .valueError) ∧
    (weights ≠ [] → weights.length = anchors.length →
      AddBranch.check_branch anchors weights adds = .ok ⟨anchors, weights, adds⟩) ∧
    (weights = [] → anchors ≠ [] →
      AddBranch.check_branch anchors weights adds =
        .ok ⟨anchors, List.replicate anchors.length 1, adds⟩) := by
  refine ⟨?_, ?_, ?_⟩
  · intro h1 h2
    simp [AddBranch.check_branch, h1, h2]
  · intro h1 h2
    simp [AddBranch.check_branch, h1, h2]
  · intro h1 h2
    have : anchors.length > 0 := by
      cases anchors with
      | nil => exact absurd rfl h2
      | cons a l => simp
    simp [AddBranch.check_branch, h1, this]

theorem check_branch_amended_witness :
    (([] : List ℚ) = [] ∧ (["CA", "CB"] : List String) ≠ []) ∧
    AddBranch.check_branch ["CA", "CB"] [] [] =
      .ok ⟨["CA", "CB"], List.replicate (["CA", "CB"] : List String).length 1, []⟩ :=
  ⟨⟨rfl, by decide⟩, (check_branch_amended ["CA", "CB"] [] []).2.2 rfl (by decide)⟩

/-! ## Structural lemmas about residue mutation -/

lemma lookup_eq_some {r : Residue} {n : String} {a : Atom} (h : r.lookup n = some a) :
    a ∈ r.atoms ∧ a.name = n := by
  unfold Residue.lookup at h
  refine ⟨List.mem_of_find?_eq_some h, ?_⟩
  have hp := List.find?_some h
  simpa using hp

lemma detach_mem {r : Residue} {n : String} {a : Atom} (h : a ∈ (r.detach n).atoms) :
    a ∈ r.atoms ∧ a.name ≠ n := by
  unfold Residue.detach at h
  rw [List.mem_filter] at h
  exact ⟨h.1, by simpa using h.2⟩

lemma addAtom_ok {r : Residue} {a : Atom} {r' : Residue} (h : r.addAtom a = .ok r') :
    r'.atoms = r.atoms ++ [a] := by
  unfold Residue.addAtom at h
  split at h
  · exact absurd h (by simp)
  · injection h with h2
    rw [← h2]

lemma rename_ok {r : Residue} {o t : String} {r' : Residue}
    (h : rename_atom r o t = .ok r') :
    ∃ a0, r.lookup o = some a0 ∧
      r'.atoms = (r.detach o).atoms ++ [{ a0 with name := t, fullname := rjust4 t }] := by
  unfold rename_atom at h
  cases hl : r.lookup o with
  | none => rw [hl] at h; exact absurd h (by simp)
  | some a0 => rw [hl] at h; exact ⟨a0, rfl, addAtom_ok h⟩

/-! ## Claim C3 — effect of applying the atom mapping -/

/-- Original atom names marked for deletion: pairs `(some o, none)`. -/
def deletedNames (mapping : List (Option String × Option String)) : List String :=
  mapping.filterMap (fun p =>
    match p with
    | (some o, none) => some o
    | _ => none)

/-- Target names of the rename pairs that actually execute: pairs
    `(some o, some t)` with `o ≠ t`. -/
def renameTargets (mapping : List (Option String × Option String)) : List String :=
  mapping.filterMap (fun p =>
    match p with
    | (some o, some t) => if o ≠ t then some t else none
    | _ => none)

/-- A concrete atom with the given name and x-coordinate. -/
def mkAtom (n : String) (x : ℚ) : Atom :=
  ⟨n, (x, 0, 0), 1, 0, " ", n, none, "C"⟩

/-- C3 counterexample: the mapping `[(X, null), (Y, X)]` deletes `X` and then
    renames `Y` to `X`, so after the mapping has been applied an atom named
    `X` — a name marked for deletion — is present again. -/
theorem mapping_deleted_name_counterexample :
    applyMapping [(some "X", none), (some "Y", some "X")]
        ⟨"VAL", "A", 1, [mkAtom "X" 1, mkAtom "Y" 2]⟩ =
      .ok ⟨"VAL", "A", 1, [⟨"X", (2, 0, 0), 1, 0, " ", rjust4 "X", none, "C"⟩]⟩ ∧
    "X" ∈ deletedNames [(some "X", none), (some "Y", some "X")] := by
  exact ⟨rfl, by decide⟩

lemma mem_deletedNames_tail {X : String} {p : Option String × Option String}
    {rest : List (Option String × Option String)} (h : X ∈ deletedNames rest) :
    X ∈ deletedNames (p :: rest) := by
  unfold deletedNames at *
  rw [List.filterMap_cons]
  split
  · exact h
  · exact List.mem_cons_of_mem _ h

lemma mem_renameTargets_tail {X : String} {p : Option String × Option String}
    {rest : List (Option String × Option String)} (h : X ∈ renameTargets rest) :
    X ∈ renameTargets (p :: rest) := by
  unfold renameTargets at *
  rw [List.filterMap_cons]
  split
  · exact h
  · exact List.mem_cons_of_mem _ h

lemma mem_renameTargets_head {o t : String}
    {rest : List (Option String × Option String)} (h : o ≠ t) :
    t ∈ renameTargets ((some o, some t) :: rest) := by
  unfold renameTargets
  rw [List.filterMap_cons]
  simp [h]

lemma applyMappingGo_not_introduced {X : String} :
    ∀ (pairs : List (Option String × Option String)) (r r' : Residue),
    X ∉ renameTargets pairs → applyMappingGo pairs r = .ok r' →
    (∀ a ∈ r.atoms, a.name ≠ X) → ∀ a ∈ r'.atoms, a.name ≠ X := by
  intro pairs
  induction pairs with
  | nil =>
    intro r r' _ hgo habs
    simp only [applyMappingGo] at hgo
    injection hgo with h
    rw [← h]
    exact habs
  | cons p rest ih =>
    obtain ⟨ori, tar⟩ := p
    intro r r' hX hgo habs
    cases ori with
    | none =>
      simp only [applyMappingGo] at hgo
      exact ih r r' (fun hm => hX (mem_renameTargets_tail hm)) hgo habs
    | some o =>
      cases tar with
      | none =>
        simp only [applyMappingGo] at hgo
        refine ih (r.detach o) r' (fun hm => hX (mem_renameTargets_tail hm)) hgo ?_
        intro a ha
        exact habs a (detach_mem ha).1
      | some t =>
        simp only [applyMappingGo] at hgo
        by_cases heq : o = t
        · rw [if_pos heq] at hgo
          exact ih r r' (fun hm => hX (mem_renameTargets_tail hm)) hgo habs
        · rw [if_neg heq] at hgo
          cases hre : rename_atom r o t with
          | error e => rw [hre] at hgo; exact absurd hgo (by simp)
          | ok r1 =>
            rw [hre] at hgo
            obtain ⟨a0, _, hatoms⟩ := rename_ok hre
            refine ih r1 r' (fun hm => hX (mem_renameTargets_tail hm)) hgo ?_
            intro a ha
            rw [hatoms, List.mem_append] at ha
            rcases ha with ha | ha
            · exact habs a (detach_mem ha).1
            · have ht : t ∈ renameTargets ((some o, some t) :: rest) :=
                mem_renameTargets_head heq
              rcases List.mem_singleton.mp ha with rfl
              intro hname
              exact hX (hname ▸ ht)

lemma deletedNames_cons_none (tar : Option String)
    (rest : List (Option String × Option String)) :
    deletedNames ((none, tar) :: rest) = deletedNames rest := by
  simp [deletedNames, List.filterMap_cons]

lemma deletedNames_cons_del (o : String) (rest : List (Option String × Option String)) :
    deletedNames ((some o, none) :: rest) = o :: deletedNames rest := by
  simp [deletedNames, List.filterMap_cons]

lemma deletedNames_cons_ren (o t : String) (rest : List (Option String × Option String)) :
    deletedNames ((some o, some t) :: rest) = deletedNames rest := by
  simp [deletedNames, List.filterMap_cons]

lemma applyMappingGo_deleted_gone :
    ∀ (pairs : List (Option String × Option String)) (r r' : Residue),
    (∀ t ∈ renameTargets pairs, t ∉ deletedNames pairs) →
    applyMappingGo pairs r = .ok r' →
    ∀ X ∈ deletedNames pairs, ∀ a ∈ r'.atoms, a.name ≠ X := by
  intro pairs
  induction pairs with
  | nil =>
    intro r r' _ _ X hX
    simp [deletedNames] at hX
  | cons p rest ih =>
    obtain ⟨ori, tar⟩ := p
    intro r r' hdisj hgo X hX
    have hdisj' : ∀ t ∈ renameTargets rest, t ∉ deletedNames rest :=
      fun t htm hdm =>
        hdisj t (mem_renameTargets_tail htm) (mem_deletedNames_tail hdm)
    cases ori with
    | none =>
      simp only [applyMappingGo] at hgo
      rw [deletedNames_cons_none] at hX
      exact ih r r' hdisj' hgo X hX
    | some o =>
      cases tar with
      | none =>
        simp only [applyMappingGo] at hgo
        rw [deletedNames_cons_del] at hX
        rcases List.mem_cons.mp hX with rfl | hX
        · have hnr : X ∉ renameTargets rest := by
            intro hmem
            exact hdisj X (mem_renameTargets_tail hmem)
              (by rw [deletedNames_cons_del]; exact List.mem_cons_self _ _)
          refine applyMappingGo_not_introduced rest (r.detach X) r' hnr hgo ?_
          intro a ha
          exact (detach_mem ha).2
        · exact ih (r.detach o) r' hdisj' hgo X hX
      | some t =>
        simp only [applyMappingGo] at hgo
        rw [deletedNames_cons_ren] at hX
        by_cases heq : o = t
        · rw [if_pos heq] at hgo
          exact ih r r' hdisj' hgo X hX
        · rw [if_neg heq] at hgo
          cases hre : rename_atom r o t with
          | error e => rw [hre] at hgo; exact absurd hgo (by simp)
          | ok r1 =>
            rw [hre] at hgo
            exact ih r1 r' hdisj' hgo X hX

/-- The per-atom fields the claim requires a rename to preserve. -/
def sameAuxFields (a b : Atom) : Prop :=
  a.coord = b.coord ∧ a.occupancy = b.occupancy ∧ a.bfactor = b.bfactor ∧
    a.serial = b.serial ∧ a.element = b.element

lemma sameAuxFields_refl (a : Atom) : sameAuxFields a a :=
  ⟨rfl, rfl, rfl, rfl, rfl⟩

lemma applyMappingGo_fields :
    ∀ (pairs : List (Option String × Option String)) (r r' : Residue),
    applyMappingGo pairs r = .ok r' →
    ∀ a ∈ r'.atoms, ∃ b ∈ r.atoms, sameAuxFields a b := by
  intro pairs
  induction pairs with
  | nil =>
    intro r r' hgo a ha
    simp only [applyMappingGo] at hgo
    injection hgo with h
    rw [← h] at ha
    exact ⟨a, ha, sameAuxFields_refl a⟩
  | cons p rest ih =>
    obtain ⟨ori, tar⟩ := p
    intro r r' hgo a ha
    cases ori with
    | none =>
      simp only [applyMappingGo] at hgo
      exact ih r r' hgo a ha
    | some o =>
      cases tar with
      | none =>
        simp only [applyMappingGo] at hgo
        obtain ⟨b, hb, hsame⟩ := ih (r.detach o) r' hgo a ha
        exact ⟨b, (detach_mem hb).1, hsame⟩
      | some t =>
        simp only [applyMappingGo] at hgo
        by_cases heq : o = t
        · rw [if_pos heq] at hgo
          exact ih r r' hgo a ha
        · rw [if_neg heq] at hgo
          cases hre : rename_atom r o t with
          | error e => rw [hre] at hgo; exact absurd hgo (by simp)
          | ok r1 =>
            rw [hre] at hgo
            obtain ⟨b, hb, hsame⟩ := ih r1 r' hgo a ha
            obtain ⟨a0, hl, hatoms⟩ := rename_ok hre
            rw [hatoms, List.mem_append] at hb
            rcases hb with hb | hb
            · exact ⟨b, (detach_mem hb).1, hsame⟩
            · rcases List.mem_singleton.mp hb with rfl
              exact ⟨a0, (lookup_eq_some hl).1, hsame⟩

/-- C3 (amended): after a Modification's `atom_mapping` has been applied,
    *provided no executed rename pair's target coincides with a name marked
    for deletion*, no atom remains in the residue under a deleted name; and
    unconditionally, every atom of the resulting residue — in particular
    every renamed atom — retains the coordinate, occupancy, temperature
    factor, serial number and element of an atom of the input residue (only
    name/identity fields are touched). -/
theorem mapping_applied_amended (mapping : List (Option String × Option String))
    (r r' : Residue)
    (hdisj : ∀ t ∈ renameTargets mapping, t ∉ deletedNames mapping)
    (hok : applyMapping mapping r = .ok r') :
    (∀ a ∈ r'.atoms, ∀ X ∈ deletedNames mapping, a.name ≠ X) ∧
    (∀ a ∈ r'.atoms, ∃ b ∈ r.atoms, sameAuxFields a b) := by
  unfold applyMapping at hok
  constructor
  · intro a ha X hX
    exact applyMappingGo_deleted_gone mapping r r' hdisj hok X hX a ha
  · exact applyMappingGo_fields mapping r r' hok

theorem mapping_applied_amended_witness :
    (∀ t ∈ renameTargets [(some "A", some "B"), (some "C", none)],
      t ∉ deletedNames [(some "A", some "B"), (some "C", none)]) ∧
    applyMapping [(some "A", some "B"), (some "C", none)]
        ⟨"VAL", "A", 1, [mkAtom "A" 1, mkAtom "C" 3]⟩ =
      .ok ⟨"VAL", "A", 1, [⟨"B", (1, 0, 0), 1, 0, " ", rjust4 "B", none, "C"⟩]⟩ ∧
    ((∀ a ∈ (⟨"VAL", "A", 1,
          [⟨"B", (1, 0, 0), 1, 0, " ", rjust4 "B", none, "C"⟩]⟩ : Residue).atoms,
        ∀ X ∈ deletedNames [(some "A", some "B"), (some "C", none)], a.name ≠ X) ∧
      (∀ a ∈ (⟨"VAL", "A", 1,
          [⟨"B", (1, 0, 0), 1, 0, " ", rjust4 "B", none, "C"⟩]⟩ : Residue).atoms,
        ∃ b ∈ (⟨"VAL", "A", 1, [mkAtom "A" 1, mkAtom "C" 3]⟩ : Residue).atoms,
          sameAuxFields a b)) :=
  ⟨by decide, rfl,
    mapping_applied_amended [(some "A", some "B"), (some "C", none)]
      ⟨"VAL", "A", 1, [mkAtom "A" 1, mkAtom "C" 3]⟩
      ⟨"VAL", "A", 1, [⟨"B", (1, 0, 0), 1, 0, " ", rjust4 "B", none, "C"⟩]⟩
      (by decide) rfl⟩

/-! ## Claim C1 — the mapping runs once, on the first branch only -/

lemma mem_zipWith {α β γ : Type} (f : α → β → γ) :
    ∀ (l1 : List α) (l2 : List β) (x : γ), x ∈ List.zipWith f l1 l2 →
      ∃ a ∈ l1, ∃ b ∈ l2, x = f a b := by
  intro l1
  induction l1 with
  | nil => intro l2 x hx; simp at hx
  | cons a l1 ih =>
    intro l2 x hx
    cases l2 with
    | nil => simp at hx
    | cons b l2 =>
      rw [List.zipWith_cons_cons] at hx
      rcases List.mem_cons.mp hx with rfl | hx
      · exact ⟨a, List.mem_cons_self _ _, b, List.mem_cons_self _ _, rfl⟩
      · obtain ⟨a', ha', b', hb', hfx⟩ := ih l2 x hx
        exact ⟨a', List.mem_cons_of_mem _ ha', b', List.mem_cons_of_mem _ hb', hfx⟩

lemma fetchList_ok_mem {β α : Type} (g : β → Option α) (e : Err) :
    ∀ (l : List β) (res : List α), fetchList g e l = .ok res →
      ∀ a ∈ res, ∃ x ∈ l, g x = some a := by
  intro l
  induction l with
  | nil =>
    intro res h a ha
    simp only [fetchList] at h
    injection h with h2
    rw [← h2] at ha
    simp at ha
  | cons n ns ih =>
    intro res h a ha
    simp only [fetchList] at h
    cases hg : g n with
    | none => rw [hg] at h; exact absurd h (by simp)
    | some a0 =>
      rw [hg] at h
      cases hrest : fetchList g e ns with
      | error e2 => rw [hrest] at h; exact absurd h (by simp [Except.map])
      | ok res' =>
        rw [hrest] at h
        simp only [Except.map] at h
        injection h with h2
        rw [← h2] at ha
        rcases List.mem_cons.mp ha with rfl | ha
        · exact ⟨n, List.mem_cons_self _ _, hg⟩
        · obtain ⟨x, hx, hgx⟩ := ih res' hrest a ha
          exact ⟨x, List.mem_cons_of_mem _ hx, hgx⟩

lemma addAtomsFold_ok :
    ∀ (l : List Atom) (r r' : Residue), addAtomsFold r l = .ok r' →
      r'.atoms = r.atoms ++ l := by
  intro l
  induction l with
  | nil =>
    intro r r' h
    simp only [addAtomsFold] at h
    injection h with h2
    rw [← h2, List.append_nil]
  | cons a rest ih =>
    intro r r' h
    simp only [addAtomsFold] at h
    cases hadd : r.addAtom a with
    | error e => rw [hadd] at h; exact absurd h (by simp)
    | ok r1 =>
      rw [hadd] at h
      rw [ih r1 r' h, addAtom_ok hadd, List.append_assoc]
      rfl

/-- "This branch only inserted atoms": the result's atom list is the input's
    followed by new atoms whose names all come from the branch's
    `add_atoms`. -/
def onlyAdds (b : AddBranch) (r r' : Residue) : Prop :=
  ∃ adds, r'.atoms = r.atoms ++ adds ∧ ∀ a ∈ adds, a.name ∈ b.add_atoms

/-- Chained `onlyAdds` across a branch list. -/
def onlyAddsChain : List AddBranch → Residue → Residue → Prop
  | [], r, r' => r' = r
  | b :: bs, r, r' => ∃ rm, onlyAdds b r rm ∧ onlyAddsChain bs rm r'

lemma processBranch_adds {tmpl : Residue} {b : AddBranch} {r1 r' : Residue}
    {addList : List Atom} {coords : List Vec3}
    (hfetch : fetchList tmpl.lookup .missingAtomTemplate b.add_atoms = .ok addList)
    (hfold : addAtomsFold r1 (List.zipWith buildAddAtom addList coords) = .ok r') :
    onlyAdds b r1 r' := by
  refine ⟨List.zipWith buildAddAtom addList coords, addAtomsFold_ok _ _ _ hfold, ?_⟩
  intro a ha
  obtain ⟨ta, hta, c, _, rfl⟩ := mem_zipWith buildAddAtom addList coords a ha
  obtain ⟨nm, hnm, hlook⟩ := fetchList_ok_mem tmpl.lookup .missingAtomTemplate
    b.add_atoms addList hfetch ta hta
  have : ta.name = nm := by
    unfold Residue.lookup at hlook
    simpa using List.find?_some hlook
  simpa [buildAddAtom, this] using hnm

lemma processBranch_ok_first {R : Mat3} {mapping : List (Option String × Option String)}
    {tmpl : Residue} {b : AddBranch} {r r' : Residue}
    (h : processBranch R true mapping tmpl b r = .ok r') :
    ∃ rm, applyMapping mapping r = .ok rm ∧ onlyAdds b rm r' := by
  unfold processBranch at h
  cases h1 : fetchList (invLookup mapping) .mappingError b.anchor_atoms with
  | error e => simp only [h1] at h; exact absurd h (by simp)
  | ok anchors =>
    simp only [h1] at h
    cases h2 : fetchList (fun o => o.bind r.lookup) .missingAtomOriginal anchors with
    | error e => simp only [h2] at h; exact absurd h (by simp)
    | ok origAtoms =>
      simp only [h2] at h
      cases h3 : fetchList tmpl.lookup .missingAtomTemplate b.anchor_atoms with
      | error e => simp only [h3] at h; exact absurd h (by simp)
      | ok tmplAtoms =>
        simp only [h3] at h
        cases h4 : fetchList tmpl.lookup .missingAtomTemplate b.add_atoms with
        | error e => simp only [h4] at h; exact absurd h (by simp)
        | ok addList =>
          simp only [h4] at h
          cases h5 : applyMapping mapping r with
          | error e =>
            simp only [h5, eq_self_iff_true, if_true] at h
            exact absurd h (by simp)
          | ok rm =>
            simp only [h5, eq_self_iff_true, if_true] at h
            exact ⟨rm, rfl, processBranch_adds h4 h⟩

lemma processBranch_ok_rest {R : Mat3} {mapping : List (Option String × Option String)}
    {tmpl : Residue} {b : AddBranch} {r r' : Residue}
    (h : processBranch R false mapping tmpl b r = .ok r') :
    onlyAdds b r r' := by
  unfold processBranch at h
  cases h1 : fetchList (invLookup mapping) .mappingError b.anchor_atoms with
  | error e => simp only [h1] at h; exact absurd h (by simp)
  | ok anchors =>
    simp only [h1] at h
    cases h2 : fetchList (fun o => o.bind r.lookup) .missingAtomOriginal anchors with
    | error e => simp only [h2] at h; exact absurd h (by simp)
    | ok origAtoms =>
      simp only [h2] at h
      cases h3 : fetchList tmpl.lookup .missingAtomTemplate b.anchor_atoms with
      | error e => simp only [h3] at h; exact absurd h (by simp)
      | ok tmplAtoms =>
        simp only [h3] at h
        cases h4 : fetchList tmpl.lookup .missingAtomTemplate b.add_atoms with
        | error e => simp only [h4] at h; exact absurd h (by simp)
        | ok addList =>
          simp only [h4] at h
          exact processBranch_adds h4 h

lemma execGo_rest_chain {Rots : Nat → Mat3} {mapping : List (Option String × Option String)}
    {tmpl : Residue} :
    ∀ (bs : List AddBranch) (i : Nat) (r r' : Residue),
    execGo Rots mapping tmpl i false bs r = .ok r' → onlyAddsChain bs r r' := by
  intro bs
  induction bs with
  | nil =>
    intro i r r' h
    simp only [execGo] at h
    injection h with h2
    exact h2.symm
  | cons b rest ih =>
    intro i r r' h
    simp only [execGo] at h
    cases hp : processBranch (Rots i) false mapping tmpl b r with
    | error e => rw [hp] at h; exact absurd h (by simp)
    | ok rm =>
      rw [hp] at h
      exact ⟨rm, processBranch_ok_rest hp, ih (i + 1) rm r' h⟩

/-- C1: on every successful `_execute_modification` run whose Modification
    has at least one add-branch, the deletions and renames of the shared
    `atom_mapping` are applied to the residue exactly once — as part of the
    first branch (the residue the first branch's additions land on is the
    result of one `applyMapping` run on the input residue) — and every
    branch after the first changes the residue's atom set only by inserting
    atoms named in that branch's `add_atoms`. -/
theorem mapping_applied_once_first_branch (Rots : Nat → Mat3) (r : Residue)
    (m : Modification) (tmpl : Residue) (b : AddBranch) (bs : List AddBranch)
    (r' : Residue) (hbr : m.add_branches = b :: bs)
    (hok : execModification Rots r m tmpl = .ok r') :
    ∃ rm, applyMapping m.atom_mapping r = .ok rm ∧ onlyAddsChain (b :: bs) rm r' := by
  unfold execModification at hok
  rw [hbr] at hok
  simp only [execGo] at hok
  cases hp : processBranch (Rots 0) true m.atom_mapping tmpl b r with
  | error e => rw [hp] at hok; exact absurd hok (by simp)
  | ok r1 =>
    rw [hp] at hok
    obtain ⟨rm, hmap, hadds⟩ := processBranch_ok_first hp
    exact ⟨rm, hmap, r1, hadds, execGo_rest_chain bs 1 r1 r' hok⟩

/-- Concrete residue for the branch-execution witness. -/
def resC1 : Residue := ⟨"VAL", "A", 1, [mkAtom "CA" 0, mkAtom "X" 5]⟩

/-- Concrete template residue for the branch-execution witness. -/
def tmplC1 : Residue := ⟨"V3H", "", 0, [mkAtom "CA" 0, mkAtom "HZ" 1]⟩

/-- Concrete modification (one branch, one deletion pair) for the
    branch-execution witness. -/
def modC1 : Modification :=
  ⟨"VAL", "V3H", [(some "CA", some "CA"), (some "X", none)], [⟨["CA"], [1], ["HZ"]⟩]⟩

lemma execC1_eval :
    execModification (fun _ => idMat) resC1 modC1 tmplC1 =
      .ok ⟨"VAL", "A", 1,
        [mkAtom "CA" 0, ⟨"HZ", (1, 0, 0), 1, 0, " ", rjust4 "HZ", none, "C"⟩]⟩ := by
  simp [execModification, execGo, processBranch, fetchList, invLookup, applyMapping,
    applyMappingGo, addAtomsFold, Residue.lookup, Residue.detach, Residue.addAtom,
    buildAddAtom, compute_alignment_transform, apply_transform, wcentroid, wsum,
    mulVec, dotv, addv, subv, smulv, idMat, mkAtom, rename_atom, rjust4,
    resC1, modC1, tmplC1, List.find?, Except.map, Option.bind]

theorem mapping_applied_once_first_branch_witness :
    modC1.add_branches = ⟨["CA"], [1], ["HZ"]⟩ :: [] ∧
    execModification (fun _ => idMat) resC1 modC1 tmplC1 =
      .ok ⟨"VAL", "A", 1,
        [mkAtom "CA" 0, ⟨"HZ", (1, 0, 0), 1, 0, " ", rjust4 "HZ", none, "C"⟩]⟩ ∧
    ∃ rm, applyMapping modC1.atom_mapping resC1 = .ok rm ∧
      onlyAddsChain [⟨["CA"], [1], ["HZ"]⟩] rm
        ⟨"VAL", "A", 1,
          [mkAtom "CA" 0, ⟨"HZ", (1, 0, 0), 1, 0, " ", rjust4 "HZ", none, "C"⟩]⟩ :=
  ⟨rfl, execC1_eval,
    mapping_applied_once_first_branch (fun _ => idMat) resC1 modC1 tmplC1
      ⟨["CA"], [1], ["HZ"]⟩ [] _ rfl execC1_eval⟩

/-! ## Claim C5 — error semantics of branch execution -/

lemma addAtom_error {r : Residue} {a : Atom} {e : Err} (h : r.addAtom a = .error e) :
    e = .duplicateAtom := by
  unfold Residue.addAtom at h
  split at h
  · injection h with h2; exact h2.symm
  · exact absurd h (by simp)

lemma rename_error {r : Residue} {o t : String} {e : Err}
    (h : rename_atom r o t = .error e) :
    e = .renameKeyError ∨ e = .duplicateAtom := by
  unfold rename_atom at h
  cases hl : r.lookup o with
  | none => rw [hl] at h; injection h with h2; exact Or.inl h2.symm
  | some a0 =>
    rw [hl] at h
    exact Or.inr (addAtom_error h)

lemma applyMappingGo_error :
    ∀ (pairs : List (Option String × Option String)) (r r1 : Residue) (e : Err),
    applyMappingGo pairs r = .error (e, r1) →
    e = .renameKeyError ∨ e = .duplicateAtom := by
  intro pairs
  induction pairs with
  | nil =>
    intro r r1 e h
    simp only [applyMappingGo] at h
    exact absurd h (by simp)
  | cons p rest ih =>
    obtain ⟨ori, tar⟩ := p
    intro r r1 e h
    cases ori with
    | none => simp only [applyMappingGo] at h; exact ih r r1 e h
    | some o =>
      cases tar with
      | none => simp only [applyMappingGo] at h; exact ih _ r1 e h
      | some t =>
        simp only [applyMappingGo] at h
        by_cases heq : o = t
        · rw [if_pos heq] at h; exact ih r r1 e h
        · rw [if_neg heq] at h
          cases hre : rename_atom r o t with
          | error e2 =>
            rw [hre] at h
            injection h with h2
            have he : e2 = e := congrArg Prod.fst h2
            exact he ▸ rename_error hre
          | ok r2 => rw [hre] at h; exact ih r2 r1 e h

lemma addAtomsFold_error :
    ∀ (l : List Atom) (r r1 : Residue) (e : Err),
    addAtomsFold r l = .error (e, r1) → e = .duplicateAtom := by
  intro l
  induction l with
  | nil =>
    intro r r1 e h
    simp only [addAtomsFold] at h
    exact absurd h (by simp)
  | cons a rest ih =>
    intro r r1 e h
    simp only [addAtomsFold] at h
    cases ha : r.addAtom a with
    | error e2 =>
      rw [ha] at h
      injection h with h2
      have he : e2 = e := congrArg Prod.fst h2
      exact he ▸ addAtom_error ha
    | ok r2 => rw [ha] at h; exact ih r2 r1 e h

lemma fetchList_error_eq {β α : Type} (g : β → Option α) (e : Err) :
    ∀ (l : List β) (e2 : Err), fetchList g e l = .error e2 → e2 = e := by
  intro l
  induction l with
  | nil => intro e2 h; simp only [fetchList] at h; exact absurd h (by simp)
  | cons n ns ih =>
    intro e2 h
    simp only [fetchList] at h
    cases hg : g n with
    | none => rw [hg] at h; injection h with h2; exact h2.symm
    | some a =>
      rw [hg] at h
      cases hr : fetchList g e ns with
      | error e3 =>
        rw [hr] at h
        simp only [Except.map] at h
        injection h with h2
        exact h2 ▸ ih e3 hr
      | ok res => rw [hr] at h; exact absurd h (by simp [Except.map])

lemma fetchList_error_exists {β α : Type} (g : β → Option α) (e : Err) :
    ∀ (l : List β) (e2 : Err), fetchList g e l = .error e2 → ∃ x ∈ l, g x = none := by
  intro l
  induction l with
  | nil => intro e2 h; simp only [fetchList] at h; exact absurd h (by simp)
  | cons n ns ih =>
    intro e2 h
    simp only [fetchList] at h
    cases hg : g n with
    | none => exact ⟨n, List.mem_cons_self _ _, hg⟩
    | some a =>
      rw [hg] at h
      cases hr : fetchList g e ns with
      | error e3 =>
        obtain ⟨x, hx, hgx⟩ := ih e3 hr
        exact ⟨x, List.mem_cons_of_mem _ hx, hgx⟩
      | ok res => rw [hr] at h; exact absurd h (by simp [Except.map])

lemma fetchList_error_of_none {β α : Type} (g : β → Option α) (e : Err) :
    ∀ (l : List β), (∃ x ∈ l, g x = none) → fetchList g e l = .error e := by
  intro l
  induction l with
  | nil => intro h; simp at h
  | cons n ns ih =>
    intro h
    simp only [fetchList]
    cases hg : g n with
    | none => rfl
    | some a =>
      obtain ⟨x, hx, hgx⟩ := h
      rcases List.mem_cons.mp hx with rfl | hx
      · rw [hg] at hgx; exact absurd hgx (by simp)
      · rw [ih ⟨x, hx, hgx⟩]
        rfl

lemma fetchList_ok_all {β α : Type} (g : β → Option α) (e : Err) :
    ∀ (l : List β) (res : List α), fetchList g e l = .ok res →
      ∀ x ∈ l, g x ≠ none := by
  intro l
  induction l with
  | nil => intro res _ x hx; simp at hx
  | cons n ns ih =>
    intro res h x hx
    simp only [fetchList] at h
    cases hg : g n with
    | none => rw [hg] at h; exact absurd h (by simp)
    | some a =>
      rw [hg] at h
      cases hr : fetchList g e ns with
      | error e2 => rw [hr] at h; exact absurd h (by simp [Except.map])
      | ok res' =>
        rcases List.mem_cons.mp hx with rfl | hx
        · rw [hg]; simp
        · exact ih res' hr x hx

lemma fetchList_ok_mem_forward {β α : Type} (g : β → Option α) (e : Err) :
    ∀ (l : List β) (res : List α), fetchList g e l = .ok res →
      ∀ x ∈ l, ∃ a ∈ res, g x = some a := by
  intro l
  induction l with
  | nil => intro res _ x hx; simp at hx
  | cons n ns ih =>
    intro res h x hx
    simp only [fetchList] at h
    cases hg : g n with
    | none => rw [hg] at h; exact absurd h (by simp)
    | some a =>
      rw [hg] at h
      cases hr : fetchList g e ns with
      | error e2 => rw [hr] at h; exact absurd h (by simp [Except.map])
      | ok res' =>
        rw [hr] at h
        simp only [Except.map] at h
        injection h with h2
        rcases List.mem_cons.mp hx with rfl | hx
        · exact ⟨a, by rw [← h2]; exact List.mem_cons_self _ _, hg⟩
        · obtain ⟨a', ha', hga'⟩ := ih res' hr x hx
          exact ⟨a', by rw [← h2]; exact List.mem_cons_of_mem _ ha', hga'⟩

lemma processBranch_mappingError_any {R : Mat3} {first : Bool}
    {mapping : List (Option String × Option String)} {tmpl : Residue} {b : AddBranch}
    {r r1 : Residue}
    (h : processBranch R first mapping tmpl b r = .error (.mappingError, r1)) :
    ∃ x ∈ b.anchor_atoms, invLookup mapping x = none := by
  unfold processBranch at h
  cases h1 : fetchList (invLookup mapping) .mappingError b.anchor_atoms with
  | error e => exact fetchList_error_exists _ _ _ e h1
  | ok anchors =>
    simp only [h1] at h
    exfalso
    cases h2 : fetchList (fun o => o.bind r.lookup) .missingAtomOriginal anchors with
    | error e2 =>
      simp only [h2] at h
      injection h with hp
      have : e2 = Err.mappingError := congrArg Prod.fst hp
      rw [fetchList_error_eq _ _ _ e2 h2] at this
      exact absurd this (by simp)
    | ok origAtoms =>
      simp only [h2] at h
      cases h3 : fetchList tmpl.lookup .missingAtomTemplate b.anchor_atoms with
      | error e3 =>
        simp only [h3] at h
        injection h with hp
        have : e3 = Err.mappingError := congrArg Prod.fst hp
        rw [fetchList_error_eq _ _ _ e3 h3] at this
        exact absurd this (by simp)
      | ok tmplAtoms =>
        simp only [h3] at h
        cases h4 : fetchList tmpl.lookup .missingAtomTemplate b.add_atoms with
        | error e4 =>
          simp only [h4] at h
          injection h with hp
          have : e4 = Err.mappingError := congrArg Prod.fst hp
          rw [fetchList_error_eq _ _ _ e4 h4] at this
          exact absurd this (by simp)
        | ok addList =>
          simp only [h4] at h
          cases hfirst : first with
          | true =>
            rw [hfirst] at h
            cases h5 : applyMapping mapping r with
            | error ep =>
              obtain ⟨e5, r5⟩ := ep
              simp only [h5, eq_self_iff_true, if_true] at h
              injection h with hp
              have : e5 = Err.mappingError := congrArg Prod.fst hp
              rcases applyMappingGo_error mapping r r5 e5 h5 with h6 | h6 <;>
                rw [h6] at this <;> exact absurd this (by simp)
            | ok rm =>
              simp only [h5, eq_self_iff_true, if_true] at h
              cases h6 : addAtomsFold rm (List.zipWith buildAddAtom addList
                  (apply_transform (addList.map (fun a => a.coord))
                    (compute_alignment_transform R (origAtoms.map (fun a => a.coord))
                      (tmplAtoms.map (fun a => a.coord)) b.weights).1
                    (compute_alignment_transform R (origAtoms.map (fun a => a.coord))
                      (tmplAtoms.map (fun a => a.coord)) b.weights).2)) with
              | error ep =>
                obtain ⟨e6, r6⟩ := ep
                rw [h6] at h
                injection h with hp
                have : e6 = Err.mappingError := congrArg Prod.fst hp
                rw [addAtomsFold_error _ _ _ _ h6] at this
                exact absurd this (by simp)
              | ok rr => rw [h6] at h; exact absurd h (by simp)
          | false =>
            rw [hfirst] at h
            cases h6 : addAtomsFold r (List.zipWith buildAddAtom addList
                (apply_transform (addList.map (fun a => a.coord))
                  (compute_alignment_transform R (origAtoms.map (fun a => a.coord))
                    (tmplAtoms.map (fun a => a.coord)) b.weights).1
                  (compute_alignment_transform R (origAtoms.map (fun a => a.coord))
                    (tmplAtoms.map (fun a => a.coord)) b.weights).2)) with
            | error ep =>
              obtain ⟨e6, r6⟩ := ep
              simp only [h6, Bool.false_eq_true, if_false] at h
              injection h with hp
              have : e6 = Err.mappingError := congrArg Prod.fst hp
              rw [addAtomsFold_error _ _ _ _ h6] at this
              exact absurd this (by simp)
            | ok rr =>
              simp only [h6, Bool.false_eq_true, if_false] at h
              exact absurd h (by simp)

lemma execGo_mappingError {Rots : Nat → Mat3}
    {mapping : List (Option String × Option String)} {tmpl : Residue} :
    ∀ (bs : List AddBranch) (i : Nat) (first : Bool) (r rr : Residue),
    execGo Rots mapping tmpl i first bs r = .error (.mappingError, rr) →
    ∃ br ∈ bs, ∃ x ∈ br.anchor_atoms, invLookup mapping x = none := by
  intro bs
  induction bs with
  | nil =>
    intro i first r rr h
    simp only [execGo] at h
    exact absurd h (by simp)
  | cons b rest ih =>
    intro i first r rr h
    simp only [execGo] at h
    cases hp : processBranch (Rots i) first mapping tmpl b r with
    | error ep =>
      rw [hp] at h
      injection h with h2
      obtain ⟨x, hx, hinv⟩ := processBranch_mappingError_any (h2 ▸ hp)
      exact ⟨b, List.mem_cons_self _ _, x, hx, hinv⟩
    | ok r1 =>
      rw [hp] at h
      obtain ⟨br, hbr, hex⟩ := ih (i + 1) false r1 rr h
      exact ⟨br, List.mem_cons_of_mem _ hbr, hex⟩

/-- C5 (amended): (a) at the call level, `_execute_modification` fails with
    the `MappingError` key error *only if* some branch anchor has no
    inverse-mapping entry; (b) branch-locally the converse also holds:
    processing of one branch fails with `MappingError` exactly when that
    branch has an anchor with no inverse-mapping entry (so with a single
    add-branch the claim's "exactly when" is exact); and (c) a branch whose
    anchors all translate fails with a `MissingAtomError` key error when a
    translated anchor is absent from the residue or an anchor/add-atom name
    is absent from the template.  With several branches the call reports the
    first failing branch's error, which may mask a later branch's missing
    mapping entry. -/
theorem branch_error_semantics_amended (Rots : Nat → Mat3) (rS : Residue)
    (m : Modification) (R : Mat3) (first : Bool)
    (mapping : List (Option String × Option String)) (tmpl : Residue)
    (b : AddBranch) (r : Residue) :
    (∀ rr, execModification Rots rS m tmpl = .error (.mappingError, rr) →
      ∃ br ∈ m.add_branches, ∃ x ∈ br.anchor_atoms,
        invLookup m.atom_mapping x = none) ∧
    (processBranch R first mapping tmpl b r = .error (.mappingError, r) ↔
      ∃ x ∈ b.anchor_atoms, invLookup mapping x = none) ∧
    ((∀ x ∈ b.anchor_atoms, invLookup mapping x ≠ none) →
      ((∃ x ∈ b.anchor_atoms, ∃ o, invLookup mapping x = some o ∧
          o.bind r.lookup = none) ∨
        (∃ x ∈ b.anchor_atoms, tmpl.lookup x = none) ∨
        (∃ y ∈ b.add_atoms, tmpl.lookup y = none)) →
      ∃ e r1, processBranch R first mapping tmpl b r = .error (e, r1) ∧
        (e = .missingAtomOriginal ∨ e = .missingAtomTemplate)) := by
  refine ⟨?_, ⟨processBranch_mappingError_any, ?_⟩, ?_⟩
  · intro rr h
    exact execGo_mappingError m.add_branches 0 true rS rr h
  · intro hex
    have h1 : fetchList (invLookup mapping) .mappingError b.anchor_atoms =
        .error .mappingError := fetchList_error_of_none _ _ _ hex
    unfold processBranch
    rw [h1]
  · intro hall hmiss
    have h1ex : ∃ res, fetchList (invLookup mapping) .mappingError b.anchor_atoms =
        .ok res := by
      cases h1 : fetchList (invLookup mapping) .mappingError b.anchor_atoms with
      | error e =>
        obtain ⟨x, hx, hnone⟩ := fetchList_error_exists _ _ _ e h1
        exact absurd hnone (hall x hx)
      | ok res => exact ⟨res, rfl⟩
    obtain ⟨anchors, h1⟩ := h1ex
    unfold processBranch
    simp only [h1]
    cases h2 : fetchList (fun o => o.bind r.lookup) .missingAtomOriginal anchors with
    | error e2 =>
      simp only [h2]
      exact ⟨e2, r, rfl, Or.inl (fetchList_error_eq _ _ _ e2 h2)⟩
    | ok origAtoms =>
      simp only [h2]
      cases h3 : fetchList tmpl.lookup .missingAtomTemplate b.anchor_atoms with
      | error e3 =>
        simp only [h3]
        exact ⟨e3, r, rfl, Or.inr (fetchList_error_eq _ _ _ e3 h3)⟩
      | ok tmplAtoms =>
        simp only [h3]
        cases h4 : fetchList tmpl.lookup .missingAtomTemplate b.add_atoms with
        | error e4 =>
          simp only [h4]
          exact ⟨e4, r, rfl, Or.inr (fetchList_error_eq _ _ _ e4 h4)⟩
        | ok addList =>
          exfalso
          rcases hmiss with hm | hm | hm
          · obtain ⟨x, hx, o, hinv, hbind⟩ := hm
            obtain ⟨o', ho', hgo'⟩ :=
              fetchList_ok_mem_forward _ _ _ anchors h1 x hx
            rw [hinv] at hgo'
            injection hgo' with ho
            rw [← ho] at ho'
            exact fetchList_ok_all _ _ anchors origAtoms h2 o ho' hbind
          · obtain ⟨x, hx, hnone⟩ := hm
            exact fetchList_ok_all _ _ _ tmplAtoms h3 x hx hnone
          · obtain ⟨y, hy, hnone⟩ := hm
            exact fetchList_ok_all _ _ _ addList h4 y hy hnone

/-- Concrete residue for the error-semantics counterexample. -/
def resC5 : Residue := ⟨"VAL", "A", 1, [mkAtom "CA" 0]⟩

/-- Concrete (empty) template for the error-semantics counterexample. -/
def tmplC5 : Residue := ⟨"V3H", "", 0, []⟩

/-- Two-branch modification: the first branch fails on a template lookup,
    the second branch's anchor has no inverse-mapping entry. -/
def modC5 : Modification :=
  ⟨"VAL", "V3H", [(some "CA", some "CA")], [⟨["CA"], [1], []⟩, ⟨["QQ"], [1], []⟩]⟩

/-- C5 counterexample: a branch anchor (`QQ`, in the second branch) has no
    inverse-mapping entry, yet the call fails with the missing-template-atom
    key error raised by the *first* branch, not with `MappingError` — so
    "fails with MappingError exactly when some branch anchor has no
    inverse-mapping entry" is false as an if-and-only-if at the call level. -/
theorem mapping_error_exactness_counterexample :
    (∃ br ∈ modC5.add_branches, ∃ x ∈ br.anchor_atoms,
      invLookup modC5.atom_mapping x = none) ∧
    execModification (fun _ => idMat) resC5 modC5 tmplC5 =
      .error (.missingAtomTemplate, resC5) ∧
    ∀ rr, execModification (fun _ => idMat) resC5 modC5 tmplC5 ≠
      .error (.mappingError, rr) := by
  have he : execModification (fun _ => idMat) resC5 modC5 tmplC5 =
      .error (.missingAtomTemplate, resC5) := rfl
  refine ⟨by decide, he, fun rr h => ?_⟩
  rw [he] at h
  simp at h

theorem branch_error_semantics_amended_witness :
    (∃ x ∈ (⟨["QQ"], [1], []⟩ : AddBranch).anchor_atoms,
      invLookup [(some "CA", some "CA")] x = none) ∧
    processBranch idMat true [(some "CA", some "CA")] tmplC5 ⟨["QQ"], [1], []⟩ resC5 =
      .error (.mappingError, resC5) :=
  ⟨by decide,
    (branch_error_semantics_amended (fun _ => idMat) resC5 modC5 idMat true
      [(some "CA", some "CA")] tmplC5 ⟨["QQ"], [1], []⟩ resC5).2.1.mpr (by decide)⟩

/-! ## Claim C4 — hydrogens after a successful apply -/

/-- All add-atom names over a branch list. -/
def branchAddNames (bs : List AddBranch) : List String :=
  (bs.map (fun b => b.add_atoms)).join

lemma mem_branchAddNames_head {b : AddBranch} {bs : List AddBranch} {n : String}
    (h : n ∈ b.add_atoms) : n ∈ branchAddNames (b :: bs) := by
  unfold branchAddNames
  simp only [List.map_cons, List.join_cons, List.mem_append]
  exact Or.inl h

lemma mem_branchAddNames_tail {b : AddBranch} {bs : List AddBranch} {n : String}
    (h : n ∈ branchAddNames bs) : n ∈ branchAddNames (b :: bs) := by
  unfold branchAddNames at *
  simp only [List.map_cons, List.join_cons, List.mem_append]
  exact Or.inr h

lemma applyMappingGo_names :
    ∀ (pairs : List (Option String × Option String)) (r r' : Residue),
    applyMappingGo pairs r = .ok r' →
    ∀ a ∈ r'.atoms, (∃ b0 ∈ r.atoms, a.name = b0.name) ∨
      a.name ∈ renameTargets pairs := by
  intro pairs
  induction pairs with
  | nil =>
    intro r r' hgo a ha
    simp only [applyMappingGo] at hgo
    injection hgo with h
    rw [← h] at ha
    exact Or.inl ⟨a, ha, rfl⟩
  | cons p rest ih =>
    obtain ⟨ori, tar⟩ := p
    intro r r' hgo a ha
    cases ori with
    | none =>
      simp only [applyMappingGo] at hgo
      rcases ih r r' hgo a ha with h | h
      · exact Or.inl h
      · exact Or.inr (mem_renameTargets_tail h)
    | some o =>
      cases tar with
      | none =>
        simp only [applyMappingGo] at hgo
        rcases ih _ r' hgo a ha with ⟨b0, hb0, hn⟩ | h
        · exact Or.inl ⟨b0, (detach_mem hb0).1, hn⟩
        · exact Or.inr (mem_renameTargets_tail h)
      | some t =>
        simp only [applyMappingGo] at hgo
        by_cases heq : o = t
        · rw [if_pos heq] at hgo
          rcases ih r r' hgo a ha with h | h
          · exact Or.inl h
          · exact Or.inr (mem_renameTargets_tail h)
        · rw [if_neg heq] at hgo
          cases hre : rename_atom r o t with
          | error e => rw [hre] at hgo; exact absurd hgo (by simp)
          | ok r1 =>
            rw [hre] at hgo
            rcases ih r1 r' hgo a ha with ⟨b0, hb0, hn⟩ | h
            · obtain ⟨a0, _, hatoms⟩ := rename_ok hre
              rw [hatoms, List.mem_append] at hb0
              rcases hb0 with hb0 | hb0
              · exact Or.inl ⟨b0, (detach_mem hb0).1, hn⟩
              · rcases List.mem_singleton.mp hb0 with rfl
                exact Or.inr (by rw [hn]; exact mem_renameTargets_head heq)
            · exact Or.inr (mem_renameTargets_tail h)

lemma processBranch_names {R : Mat3} {first : Bool}
    {mapping : List (Option String × Option String)} {tmpl : Residue}
    {b : AddBranch} {r r' : Residue}
    (h : processBranch R first mapping tmpl b r = .ok r') :
    ∀ a ∈ r'.atoms, (∃ b0 ∈ r.atoms, a.name = b0.name) ∨
      a.name ∈ renameTargets mapping ∨ a.name ∈ b.add_atoms := by
  intro a ha
  cases first with
  | false =>
    obtain ⟨adds, heq, hnames⟩ := processBranch_ok_rest h
    rw [heq, List.mem_append] at ha
    rcases ha with ha | ha
    · exact Or.inl ⟨a, ha, rfl⟩
    · exact Or.inr (Or.inr (hnames a ha))
  | true =>
    obtain ⟨rm, hmap, adds, heq, hnames⟩ := processBranch_ok_first h
    rw [heq, List.mem_append] at ha
    rcases ha with ha | ha
    · rcases applyMappingGo_names mapping r rm hmap a ha with h2 | h2
      · exact Or.inl h2
      · exact Or.inr (Or.inl h2)
    · exact Or.inr (Or.inr (hnames a ha))

lemma execGo_names {Rots : Nat → Mat3}
    {mapping : List (Option String × Option String)} {tmpl : Residue} :
    ∀ (bs : List AddBranch) (i : Nat) (first : Bool) (r r' : Residue),
    execGo Rots mapping tmpl i first bs r = .ok r' →
    ∀ a ∈ r'.atoms, (∃ b0 ∈ r.atoms, a.name = b0.name) ∨
      a.name ∈ renameTargets mapping ∨ a.name ∈ branchAddNames bs := by
  intro bs
  induction bs with
  | nil =>
    intro i first r r' h a ha
    simp only [execGo] at h
    injection h with h2
    rw [← h2] at ha
    exact Or.inl ⟨a, ha, rfl⟩
  | cons b rest ih =>
    intro i first r r' h a ha
    simp only [execGo] at h
    cases hp : processBranch (Rots i) first mapping tmpl b r with
    | error e => rw [hp] at h; exact absurd h (by simp)
    | ok r1 =>
      rw [hp] at h
      rcases ih (i + 1) false r1 r' h a ha with ⟨b0, hb0, hn⟩ | h2 | h2
      · rcases processBranch_names hp b0 hb0 with h3 | h3 | h3
        · obtain ⟨b1, hb1, hn1⟩ := h3
          exact Or.inl ⟨b1, hb1, hn.trans hn1⟩
        · exact Or.inr (Or.inl (hn ▸ h3))
        · exact Or.inr (Or.inr (hn ▸ mem_branchAddNames_head h3))
      · exact Or.inr (Or.inl h2)
      · exact Or.inr (Or.inr (mem_branchAddNames_tail h2))

/-- C4 (amended): after every successful `apply_modification` call, every
    atom of the modified residue whose name starts with the hydrogen marker
    `"H"` either was inserted by one of the modification's add-branches or
    received its name from a rename pair of the `atom_mapping`; every
    hydrogen present before the call is removed by the unconditional
    pre-strip (the residue branch execution starts from is
    `remove_hydrogens` of the located residue). -/
theorem hydrogen_amended (lib : ModificationLibrary) (Rots : Nat → Mat3)
    (s : AnnotatedStructure) (chain : String) (num : Int) (target : String)
    (s' : AnnotatedStructure)
    (hok : applyModification lib Rots s chain num target = .ok s') :
    ∃ idx residue m res',
      s.findResidueIdx chain num = some idx ∧
      s.residues.get? idx = some residue ∧
      lib.getByPair (remove_hydrogens residue).resname target = .ok m ∧
      s'.residues = s.residues.set idx res' ∧
      ∀ a ∈ res'.atoms, strStarts a.name "H" = true →
        a.name ∈ branchAddNames m.add_branches ∨
          a.name ∈ renameTargets m.atom_mapping := by
  unfold applyModification at hok
  cases hidx : s.findResidueIdx chain num with
  | none => rw [hidx] at hok; exact absurd hok (by simp)
  | some idx =>
    simp only [hidx] at hok
    cases hres : s.residues.get? idx with
    | none => simp only [hres] at hok; exact absurd hok (by simp)
    | some residue =>
      simp only [hres] at hok
      cases hmod : lib.getByPair (remove_hydrogens residue).resname target with
      | error e => simp only [hmod] at hok; exact absurd hok (by simp)
      | ok m =>
        simp only [hmod] at hok
        cases htm : lib.load_residue_from_pdb target with
        | error e => simp only [htm] at hok; exact absurd hok (by simp)
        | ok tmplR =>
          simp only [htm] at hok
          cases hex : execModification Rots (remove_hydrogens residue) m tmplR with
          | error ep =>
            obtain ⟨e1, r1⟩ := ep
            simp only [hex] at hok
            exact absurd hok (by simp)
          | ok r1 =>
            simp only [hex] at hok
            injection hok with hs'
            refine ⟨idx, residue, m, { r1 with resname := tmplR.resname },
              rfl, hres, hmod, ?_, ?_⟩
            · rw [← hs']
              rfl
            · intro a ha hH
              unfold execModification at hex
              rcases execGo_names m.add_branches 0 true
                  (remove_hydrogens residue) r1 hex a ha with ⟨b0, hb0, hn⟩ | h | h
              · exfalso
                unfold remove_hydrogens at hb0
                rw [List.mem_filter] at hb0
                have : strStarts b0.name "H" = false := by
                  simpa using hb0.2
                rw [hn, this] at hH
                exact absurd hH (by simp)
              · exact Or.inr h
              · exact Or.inl h

/-- Modification renaming `X` to the hydrogen-marker name `HX`. -/
def modC4 : Modification :=
  ⟨"VAL", "V3H", [(some "CA", some "CA"), (some "X", some "HX")], [⟨["CA"], [1], []⟩]⟩

/-- Input residue for the hydrogen counterexample (no hydrogens). -/
def resC4 : Residue := ⟨"VAL", "A", 1, [mkAtom "CA" 0, mkAtom "X" 5]⟩

/-- Template residue for the hydrogen counterexample. -/
def tmplResC4 : Residue := ⟨"V3H", "", 0, [mkAtom "CA" 0]⟩

/-- Library holding the `VAL -> V3H` rule and the `V3H` template. -/
def libC4 : ModificationLibrary := ⟨[modC4], [("V3H", [tmplResC4])]⟩

/-- Structure holding the input residue. -/
def sC4 : AnnotatedStructure := ⟨[resC4], []⟩

/-- The structure the hydrogen counterexample run produces. -/
def sC4' : AnnotatedStructure :=
  ⟨[⟨"V3H", "A", 1,
      [mkAtom "CA" 0, ⟨"HX", (5, 0, 0), 1, 0, " ", rjust4 "HX", none, "C"⟩]⟩],
   [⟨1, "A", "VAL", "V3H"⟩]⟩

lemma applyC4_eval :
    applyModification libC4 (fun _ => idMat) sC4 "A" 1 "V3H" = .ok sC4' := by
  simp [applyModification, AnnotatedStructure.findResidueIdx,
    AnnotatedStructure.setResidue, remove_hydrogens, ModificationLibrary.getByPair,
    ModificationLibrary.load_residue_from_pdb, strContains, chInfix, chPre,
    List.findIdx?, execModification, execGo, processBranch, fetchList, invLookup,
    applyMapping, applyMappingGo, addAtomsFold, Residue.lookup, Residue.detach,
    Residue.addAtom, buildAddAtom, compute_alignment_transform, apply_transform,
    wcentroid, wsum, mulVec, dotv, addv, subv, smulv, idMat, mkAtom, rename_atom,
    rjust4, modC4, resC4, tmplResC4, libC4, sC4, sC4', List.find?, Except.map,
    Option.bind, strStarts]

/-- C4 counterexample: a successful `apply_modification` run whose mapping
    renames `X` to `HX` leaves an atom named `HX` — a hydrogen-marker name —
    in the modified residue although no add-branch inserted it and no atom of
    that name (indeed no hydrogen at all) existed before the call. -/
theorem hydrogen_rename_counterexample :
    applyModification libC4 (fun _ => idMat) sC4 "A" 1 "V3H" = .ok sC4' ∧
    strStarts "HX" "H" = true ∧
    (∃ res' ∈ sC4'.residues, ∃ a ∈ res'.atoms, a.name = "HX") ∧
    (∀ br ∈ modC4.add_branches, "HX" ∉ br.add_atoms) ∧
    (∀ a ∈ resC4.atoms, a.name ≠ "HX") := by
  refine ⟨applyC4_eval, ?_, by decide, by decide, by decide⟩
  decide

theorem hydrogen_amended_witness :
    applyModification libC4 (fun _ => idMat) sC4 "A" 1 "V3H" = .ok sC4' ∧
    (∃ idx residue m res',
      sC4.findResidueIdx "A" 1 = some idx ∧
      sC4.residues.get? idx = some residue ∧
      libC4.getByPair (remove_hydrogens residue).resname "V3H" = .ok m ∧
      sC4'.residues = sC4.residues.set idx res' ∧
      ∀ a ∈ res'.atoms, strStarts a.name "H" = true →
        a.name ∈ branchAddNames m.add_branches ∨
          a.name ∈ renameTargets m.atom_mapping) :=
  ⟨applyC4_eval,
    hydrogen_amended libC4 (fun _ => idMat) sC4 "A" 1 "V3H" sC4' applyC4_eval⟩

/-! ## Claim C10 — residue-not-found raises before any mutation -/

lemma findIdx?_none_of_all {α : Type} (p : α → Bool) :
    ∀ (l : List α) (i : Nat), (∀ x ∈ l, p x = false) → l.findIdx? p i = none := by
  intro l
  induction l with
  | nil => intro i _; rfl
  | cons a l ih =>
    intro i h
    simp only [List.findIdx?]
    rw [h a (List.mem_cons_self _ _)]
    exact ih (i + 1) (fun x hx => h x (List.mem_cons_of_mem _ hx))

/-- C10: when no residue of the structure matches the requested chain
    identifier and residue number, `apply_modification` fails with the
    residue-not-found error and the structure is returned exactly as it was
    — no hydrogen strip, no atom change, no log entry — even on the
    `inplace=True` path (the error carries the unmodified structure). -/
theorem residue_not_found_no_mutation (lib : ModificationLibrary)
    (Rots : Nat → Mat3) (s : AnnotatedStructure) (chain_identifier : String)
    (residue_number : Int) (target_abbreviation : String)
    (h : ∀ res ∈ s.residues,
      ¬(res.chain = chain_identifier ∧ res.number = residue_number)) :
    applyModification lib Rots s chain_identifier residue_number
      target_abbreviation = .error (.residueNotFound, s) := by
  have hidx : s.findResidueIdx chain_identifier residue_number = none := by
    unfold AnnotatedStructure.findResidueIdx
    apply findIdx?_none_of_all
    intro res hres
    have hne := h res hres
    by_cases hc : res.chain = chain_identifier
    · by_cases hn : res.number = residue_number
      · exact absurd ⟨hc, hn⟩ hne
      · simp [hn]
    · simp [hc]
  unfold applyModification
  rw [hidx]

theorem residue_not_found_no_mutation_witness :
    (∀ res ∈ (⟨[⟨"VAL", "B", 2, []⟩], []⟩ : AnnotatedStructure).residues,
      ¬(res.chain = "A" ∧ res.number = 1)) ∧
    applyModification ⟨[], []⟩ (fun _ => idMat) ⟨[⟨"VAL", "B", 2, []⟩], []⟩ "A" 1 "V3H" =
      .error (.residueNotFound, ⟨[⟨"VAL", "B", 2, []⟩], []⟩) :=
  ⟨by decide,
    residue_not_found_no_mutation ⟨[], []⟩ (fun _ => idMat)
      ⟨[⟨"VAL", "B", 2, []⟩], []⟩ "A" 1 "V3H" (by decide)⟩
